import Mathlib

/-!
Verification of `local_protein_sequence_design` against its specification.

This file shallowly embeds the two source files
`job_scripts/calculate_bb_remodeled_region_rmsd.py` and
`local_protein_sequence_design/filter.py` in Lean 4 and proves or refutes
the specification claims about them.

Modelling conventions:
* Python floats are modelled by `ℝ` (exact reals; claimed equalities are
  "up to floating point tolerance" so the exact-real model is the intended
  semantics of each claim).
* A Rosetta pose is modelled as a size together with a coordinate lookup
  per (residue index, atom name); only these capabilities are used by the
  translated code.
* External collaborators (the numpy `np.linalg.svd`, the Python `sorted`,
  PyRosetta movers/filters/energy functions) are passed in as explicit
  function parameters; theorems assume exactly the documented contract of
  each collaborator (e.g. that `svd` returns a genuine singular value
  decomposition, that `sorted` returns a permutation of its input).
* Python exceptions (`raise`, `assert`, `ZeroDivisionError`, the numpy
  `LinAlgError`) are modelled by `Option`: a raising run is `none`.
* In-place mutation of a pose (`apply_transform_Rx_plus_v`) is modelled by
  returning the updated pose value and threading it through the callers,
  which is what the imperative code does with its single mutable copy.
-/

noncomputable section

namespace LPSD

open Matrix

/-- A 3D coordinate, as produced by `xyzV_to_np_array`. -/
abbrev Point := Fin 3 → ℝ

/-- A 3×3 real matrix (numpy 3×3 array / `xyzMatrix_double_t`). -/
abbrev Mat3 := Matrix (Fin 3) (Fin 3) ℝ

/-- The capabilities of a Rosetta pose that the translated code uses:
`pose.size()` and `pose.residue(r).xyz(atom)` (atoms are addressed by their
PDB name, e.g. "N", "CA", "C"). -/
structure Pose where
  size : ℕ
  xyz : ℕ → String → Point
  name3 : ℕ → String := fun _ => ""
  natoms : ℕ → ℕ := fun _ => 0

/-- Numpy `np.dot(d, d)` for 3-vectors. -/
def npDot (u v : Point) : ℝ := ∑ a, u a * v a

/-- Numpy `np.mean(P, axis=0)`: the centroid of a list of points. -/
def centroid (P : List Point) : Point :=
  fun a => ((P.map fun p => p a).sum) / (P.length : ℝ)

/-- The cross-covariance matrix
`R = np.dot(np.transpose(np.array(P1) - com1), np.array(P2) - com2)`
computed inside `get_superimpose_transformation`:
`R[a][b] = Σ_i (P1[i][a] - com1[a]) * (P2[i][b] - com2[b])`. -/
def covMatrix (P1 P2 : List Point) : Mat3 :=
  Matrix.of fun a b =>
    (((P1.zip P2).map fun q =>
      (q.1 a - centroid P1 a) * (q.2 b - centroid P2 b)).sum)

/-- The numpy update `V[:, -1] = -V[:, -1]`: negate the last column of a 3×3 matrix. -/
def negLastCol (V : Mat3) : Mat3 :=
  Matrix.of fun a b => if b = (2 : Fin 3) then -(V a b) else V a b

/-- The contract of the external collaborator `np.linalg.svd` on a 3×3
matrix `H`: it returns `(U, S, W)` with `U, W` orthogonal, `S` diagonal
with nonnegative entries and `H = U * S * W` (numpy returns the third
factor already transposed, i.e. `vh`, which is how the source uses it). -/
def IsSVD (H U S W : Mat3) : Prop :=
  Uᵀ * U = 1 ∧ Wᵀ * W = 1 ∧ (∀ a b, a ≠ b → S a b = 0) ∧
    (∀ a, 0 ≤ S a a) ∧ H = U * S * W

/-- A proper rotation: an orthogonal 3×3 matrix of determinant `+1`. -/
def IsRotation (R : Mat3) : Prop :=
  Rᵀ * R = 1 ∧ R.det = 1

/-- The function `get_superimpose_transformation(P1, P2)` from
`calculate_bb_remodeled_region_rmsd.py`, with the external call
`np.linalg.svd` supplied as the parameter `svd`.

* `len(P1) != len(P2)` raises the explicit precondition `Exception`
  (modelled as `none`);
* on empty inputs `np.mean` yields `nan` with empty shape, the covariance
  `np.dot` degenerates to a 0-dimensional scalar, and `np.linalg.svd`
  raises `LinAlgError` ("array must be at least two-dimensional"), so the
  call fails as well (also `none`);
* otherwise the Kabsch computation runs: the SVD factors `V, S, W` of the
  covariance matrix are taken, the last column of `V` is sign-corrected when
  `det(V)·det(W) < 0`, and the result is
  `M = (V·W)ᵀ`, `t = com2 - M·com1`. -/
def get_superimpose_transformation (svd : Mat3 → Mat3 × Mat3 × Mat3)
    (P1 P2 : List Point) : Option (Mat3 × Point) :=
  if P1.length ≠ P2.length then none
  else if P1 = [] then none
  else
    let com1 := centroid P1
    let com2 := centroid P2
    let H := covMatrix P1 P2
    let V := (svd H).1
    let W := (svd H).2.2
    let Vc := if V.det * W.det < 0 then negLastCol V else V
    let M := (Vc * W)ᵀ
    some (M, com2 - M.mulVec com1)

/-- The function `get_backbone_points(pose, residues)`: for each residue in order,
append the N, CA, C coordinates in that order. -/
def get_backbone_points (pose : Pose) : List ℕ → List Point
  | [] => []
  | r :: rest =>
      pose.xyz r "N" :: pose.xyz r "CA" :: pose.xyz r "C" ::
        get_backbone_points pose rest

/-- The method `pose.apply_transform_Rx_plus_v(M, t)`: the in-place rigid transform of
a pose; every atom coordinate of every residue becomes `M·p + t`. -/
def apply_transform_Rx_plus_v (M : Mat3) (t : Point) (pose : Pose) : Pose :=
  { size := pose.size, xyz := fun r a => M.mulVec (pose.xyz r a) + t }

/-- The function `superimpose_poses_by_residues(pose_source, residues_source,
pose_target, residues_target)`. The `assert` on the residue-list lengths is
modelled as `none`. The source pose is mutated in place by
`apply_transform_Rx_plus_v`; functionally, the call returns the pair
(updated source pose, target pose). The residue-list arguments are read
(by `get_backbone_points`) and never written. -/
def superimpose_poses_by_residues (svd : Mat3 → Mat3 × Mat3 × Mat3)
    (pose_source : Pose) (residues_source : List ℕ)
    (pose_target : Pose) (residues_target : List ℕ) : Option (Pose × Pose) :=
  if residues_source.length ≠ residues_target.length then none
  else
    match get_superimpose_transformation svd
        (get_backbone_points pose_source residues_source)
        (get_backbone_points pose_target residues_target) with
    | none => none
    | some (M, t) => some (apply_transform_Rx_plus_v M t pose_source, pose_target)

/-- The inner helper `RMSD(points1, points2)` of `calc_backbone_RMSD`:
`sqrt(sum(np.dot(d, d) for d in diff) / len(diff))` where
`diff[i] = points1[i] - points2[i]` (the two lists have equal length at
every call site, so the index-wise difference is a `zip`). -/
def listRMSD (points1 points2 : List Point) : ℝ :=
  Real.sqrt
    ((((points1.zip points2).map fun q => npDot (q.1 - q.2) (q.1 - q.2)).sum)
      / (points1.length : ℝ))

/-- The function `calc_backbone_RMSD(pose1, residues1, pose2, residues2)`.
The `assert len(residues1) == len(residues2)` is modelled as `none`; with
empty residue lists the helper divides by `len(diff) == 0` and Python
raises `ZeroDivisionError`, also modelled as `none`. -/
def calc_backbone_RMSD (pose1 : Pose) (residues1 : List ℕ)
    (pose2 : Pose) (residues2 : List ℕ) : Option ℝ :=
  if residues1.length ≠ residues2.length then none
  else if residues1 = [] then none
  else some (listRMSD (get_backbone_points pose1 residues1)
      (get_backbone_points pose2 residues2))

/-- The filesystem contents of one design directory, as consumed by
`load_design` and `calculate_bb_remodeled_region_rmsds`:
whether `design.pdb.gz` exists, whether `lowest_energy_model.pdb` exists,
the structures stored in those files, and the `bb_remodeled_residues`
field of `design_info.json`. -/
structure DesignDir where
  has_design_pdb : Bool
  has_lowest_energy_model : Bool
  pose_design : Pose
  pose_lowest_energy_file : Pose
  bb_remodeled_residues : List ℕ

/-- The function `load_design(design_path)`: load the designed pose, the lowest-energy
pose (falling back to a clone of the designed pose when
`lowest_energy_model.pdb` is absent), the `bb_remodeled_residues` manifest
list and the complementary fixed list
`[i for i in range(1, pose_design.size() + 1) if not (i in bb_remodeled_residues)]`. -/
def load_design (d : DesignDir) : Pose × Pose × List ℕ × List ℕ :=
  let pose_design := d.pose_design
  let pose_lowest_energy :=
    if d.has_lowest_energy_model then d.pose_lowest_energy_file else pose_design
  let bb_remodeled_residues := d.bb_remodeled_residues
  let bb_fixed_residues :=
    (List.range' 1 pose_design.size).filter fun i => ¬ i ∈ bb_remodeled_residues
  (pose_design, pose_lowest_energy, bb_remodeled_residues, bb_fixed_residues)

/-- A pose whose atoms all sit at the origin; used to instantiate theorems
on concrete inputs. -/
def zeroPose (n : ℕ) : Pose :=
  { size := n, xyz := fun _ _ => fun _ => 0 }

/-! ## Residue correspondence matcher -/

/-- The method `xyzVector.distance`: Euclidean distance between two points. -/
def pointDist (u v : Point) : ℝ := Real.sqrt (npDot (u - v) (u - v))

/-- The list `s_t_distances` of `get_target_to_source_residue_map`: for
every source residue `i` (1-based) and target residue `j` (1-based), the
triple `(i, j, CA-CA distance)`, in loop enumeration order. -/
def allPairDistances (pose_source pose_target : Pose) : List (ℕ × ℕ × ℝ) :=
  ((List.range' 1 pose_source.size).map fun i =>
    (List.range' 1 pose_target.size).map fun j =>
      (i, j, pointDist (pose_source.xyz i "CA") (pose_target.xyz j "CA"))).flatten

/-- The greedy loop of `get_target_to_source_residue_map`: walk the sorted
distance triples `(i, j, d)`; insert `j ↦ i` when neither the target key
`j` nor the source value `i` has been claimed; stop as soon as the map has
`pose_source.size()` entries. The insertion-ordered Python dict is
modelled as an association list of (target, source) pairs. -/
def buildResMap (n_source : ℕ) : List (ℕ × ℕ × ℝ) → List (ℕ × ℕ) → List (ℕ × ℕ)
  | [], res_map => res_map
  | d :: rest, res_map =>
      let res_map' :=
        if ¬ d.2.1 ∈ res_map.map Prod.fst ∧ ¬ d.1 ∈ res_map.map Prod.snd then
          res_map ++ [(d.2.1, d.1)]
        else res_map
      if res_map'.length = n_source then res_map'
      else buildResMap n_source rest res_map'

/-- The function `get_target_to_source_residue_map(pose_source, pose_target)`, with the
external call `sorted(s_t_distances, key=lambda x: x[2])` supplied as the
parameter `sortByDist` (theorems assume its contract: the output is a
permutation of the input). -/
def get_target_to_source_residue_map
    (sortByDist : List (ℕ × ℕ × ℝ) → List (ℕ × ℕ × ℝ))
    (pose_source pose_target : Pose) : List (ℕ × ℕ) :=
  buildResMap pose_source.size
    (sortByDist (allPairDistances pose_source pose_target)) []

/-! ## RMSD batch pipeline -/

/-- The per-design data loaded by the batch loop: the designed pose and
its remodeled/fixed residue lists (the lowest-energy pose is threaded
separately because the loop mutates it). -/
structure LoadedDesign where
  design : Pose
  remodeled : List ℕ
  fixed : List ℕ

/-- The body of the pair loop of `calculate_bb_remodeled_region_rmsds`
after the superposition and the source/target choice: build the residue
map, keep the entries whose target key lies in the remodeled set of the
design owning the target, and compute the backbone RMSD over the matched residues
(sources from the map values, targets from the map keys, in map order). -/
def rmsd_entry_core (sortByDist : List (ℕ × ℕ × ℝ) → List (ℕ × ℕ × ℝ))
    (pose_source pose_target : Pose)
    (remodeled_residues_target : List ℕ) : Option ℝ :=
  let res_map := get_target_to_source_residue_map sortByDist pose_source pose_target
  let matched := res_map.filter fun p => p.1 ∈ remodeled_residues_target
  calc_backbone_RMSD pose_source (matched.map Prod.snd)
    pose_target (matched.map Prod.fst)

/-- One `(i, j)` iteration of the pair loop: superimpose the (current)
lowest-energy pose of design `j` onto design `i` by the fixed backbones,
pick source/target by size (the longer structure is the target, ties make
the lowest-energy pose the target), and compute the remodeled-region
RMSD. Returns the matrix entry together with the mutated lowest-energy
pose of design `j`. -/
def rmsd_entry (svd : Mat3 → Mat3 × Mat3 × Mat3)
    (sortByDist : List (ℕ × ℕ × ℝ) → List (ℕ × ℕ × ℝ))
    (design_i design_j : LoadedDesign) (lowest_j : Pose) : Option (ℝ × Pose) :=
  match superimpose_poses_by_residues svd lowest_j design_j.fixed
      design_i.design design_i.fixed with
  | none => none
  | some (lowest_j', _) =>
      let r? :=
        if design_i.design.size > lowest_j'.size then
          rmsd_entry_core sortByDist lowest_j' design_i.design design_i.remodeled
        else
          rmsd_entry_core sortByDist design_i.design lowest_j' design_j.remodeled
      match r? with
      | none => none
      | some r => some (r, lowest_j')

/-- The inner `j` loop for a fixed design `i`: fold over the designs
paired with their current lowest-energy poses, producing the row of RMSD
values and the updated lowest-energy poses. -/
def computeRow (svd : Mat3 → Mat3 × Mat3 × Mat3)
    (sortByDist : List (ℕ × ℕ × ℝ) → List (ℕ × ℕ × ℝ))
    (design_i : LoadedDesign) :
    List (LoadedDesign × Pose) → Option (List ℝ × List (LoadedDesign × Pose))
  | [] => some ([], [])
  | (dj, pj) :: rest =>
      match rmsd_entry svd sortByDist design_i dj pj with
      | none => none
      | some (r, pj') =>
          match computeRow svd sortByDist design_i rest with
          | none => none
          | some (rs, rest') => some (r :: rs, (dj, pj') :: rest')

/-- The outer `i` loop: one row per design, threading the mutable
lowest-energy poses through the rows. -/
def computeAllRows (svd : Mat3 → Mat3 × Mat3 × Mat3)
    (sortByDist : List (ℕ × ℕ × ℝ) → List (ℕ × ℕ × ℝ)) :
    List LoadedDesign → List (LoadedDesign × Pose) → Option (List (List ℝ))
  | [], _ => some []
  | di :: rest, st =>
      match computeRow svd sortByDist di st with
      | none => none
      | some (row, st') =>
          match computeAllRows svd sortByDist rest st' with
          | none => none
          | some m => some (row :: m)

/-- The `load_design` output reshaped for the batch loop. -/
def loadLoaded (d : DesignDir) : LoadedDesign × Pose :=
  let l := load_design d
  ({ design := l.1, remodeled := l.2.2.1, fixed := l.2.2.2 }, l.2.1)

/-- The function `calculate_bb_remodeled_region_rmsds(design_paths)`: first drop every
directory without `design.pdb.gz`, then load the retained designs and run
the pair loops. A raising run (any failing entry) is `none`. -/
def calculate_bb_remodeled_region_rmsds (svd : Mat3 → Mat3 × Mat3 × Mat3)
    (sortByDist : List (ℕ × ℕ × ℝ) → List (ℕ × ℕ × ℝ))
    (design_paths : List DesignDir) : Option (List (List ℝ)) :=
  let design_paths' := design_paths.filter fun d => d.has_design_pdb
  let loaded := design_paths'.map loadLoaded
  computeAllRows svd sortByDist (loaded.map Prod.fst) loaded

/-! ## Filter pipeline (`local_protein_sequence_design/filter.py`) -/

/-- the Python `max(xs)` on a list: raises `ValueError` on the empty list
(modelled as `none`). -/
def pyMax : List ℝ → Option ℝ
  | [] => none
  | x :: rest => some (rest.foldl max x)

/-- The external collaborators consumed by `filter.py`, each exposing the
functional contract the source relies on. -/
structure FilterOracles where
  /-- The value `pose.energies().residue_total_energy(i)` after scoring with the
  default score function. -/
  energy : Pose → ℕ → ℝ
  /-- The per-residue list decoded from
  `BuriedUnsatisfiedPolarsCalculator.get("residue_bur_unsat_polars", pose)`
  (0-indexed by Python list position). -/
  bupc : Pose → List ℝ
  /-- The helper `get_buhs_for_each_res` from `local_protein_sequence_design.basic`
  (a collaborator module outside the two translated files). -/
  get_buhs_for_each_res : Pose → List ℝ
  /-- The count `br_mover.num_segments()` after the initializing `apply` on a clone
  of the pose. -/
  num_segments : ℕ
  /-- The perturbed clone produced by `BackrubMover.apply` on a fresh
  clone of the pose, for segment `i` and repeat `j`. -/
  backrub : ℕ → ℕ → Pose
  /-- The filter `OversaturatedHbondAcceptorFilter.report_sm` with the acceptor
  selector set to the given residues. -/
  oshaf : Pose → List ℕ → ℝ
  /-- Per-residue values of `calc_per_atom_sasa_sc`. -/
  sasa_sc : Pose → ℕ → ℝ
  /-- Per-residue total SASA from `calc_per_res_hydrophobic_sasa`. -/
  sasa : Pose → ℕ → ℝ
  /-- Per-residue hydrophobic SASA from `calc_per_res_hydrophobic_sasa`. -/
  hydrophobic_sasa : Pose → ℕ → ℝ
  /-- The filter `HolesFilter.compute` with the residue selector set. -/
  holes : Pose → List ℕ → ℝ
  /-- The filter `SSShapeComplementarityFilter.compute` with the residue selector
  set. -/
  helix_sc : Pose → List ℕ → ℝ
  /-- The per-position crmsd values of the fragment quality analysis for
  the given query positions. -/
  crmsds : Pose → List ℕ → List ℝ

/-- The function `residues_average_energy(pose, residues)`: `np.mean` of the
per-residue total energies. -/
def residues_average_energy (energy : Pose → ℕ → ℝ) (pose : Pose)
    (residues : List ℕ) : ℝ :=
  ((residues.map (energy pose)).sum) / (residues.length : ℝ)

/-- The function `residues_max_energy(pose, residues)`: Python `max` of the
per-residue total energies. -/
def residues_max_energy (energy : Pose → ℕ → ℝ) (pose : Pose)
    (residues : List ℕ) : Option ℝ :=
  pyMax (residues.map (energy pose))

/-- The function `get_num_buried_unsatisfied_hbonds(pose, residues)`:
`sum(buhs_for_each_res[i - 1] for i in residues)`; an out-of-range index
raises `IndexError` (modelled as `none`). -/
def get_num_buried_unsatisfied_hbonds (bupc : Pose → List ℝ) (pose : Pose)
    (residues : List ℕ) : Option ℝ :=
  let l := bupc pose
  if ∀ i ∈ residues, i - 1 < l.length then
    some ((residues.map fun i => l.getD (i - 1) 0).sum)
  else none

/-- One consensus update of
`get_backrub_ensemble_consensus_buhs_for_each_res`:
`for k in range(len(acc)): acc[k] = min(acc[k], tmp[k])`; when `tmp` is
shorter than `acc` the indexing raises `IndexError` (modelled as
`none`). -/
def consensusUpdate (acc tmp : List ℝ) : Option (List ℝ) :=
  if acc.length ≤ tmp.length then some (acc.zipWith min tmp) else none

/-- The function `get_backrub_ensemble_consensus_buhs_for_each_res(pose)` with the
stochastic `BackrubMover` and the buried-unsatisfied counter supplied as
oracles: start from the counts of the original pose, then for every
segment `i` in `1..num_segments` and each of 5 repeats, perturb a fresh
clone and keep the pointwise minimum. (The first `apply` on a clone, done
only to initialize the segment count of the mover, contributes nothing and is
absorbed into the `num_segments` oracle.) -/
def get_backrub_ensemble_consensus_buhs_for_each_res
    (get_buhs : Pose → List ℝ) (num_segments : ℕ)
    (backrub : ℕ → ℕ → Pose) (pose : Pose) : Option (List ℝ) :=
  (List.range' 1 num_segments).foldlM
    (fun acc i =>
      (List.range 5).foldlM
        (fun acc2 j => consensusUpdate acc2 (get_buhs (backrub i j)))
        acc)
    (get_buhs pose)

/-- The function `get_num_over_saturated_hbond_acceptors(pose, acceptor_residues)`:
pure pass-through to the oversaturated-acceptor filter with the acceptor
selector set to the given residues. -/
def get_num_over_saturated_hbond_acceptors (oshaf : Pose → List ℕ → ℝ)
    (pose : Pose) (acceptor_residues : List ℕ) : ℝ :=
  oshaf pose acceptor_residues

/-- The hydrophobic residue names of `get_hydrophobic_sasa_sc`. -/
def hydrophobic_residues : List String :=
  ["ALA", "PRO", "VAL", "LEU", "ILE", "MET", "PHE", "TYR", "TRP"]

/-- The function `get_hydrophobic_sasa_sc(pose, residues)`: sum the per-residue
sidechain SASA over the residues whose `name3` is hydrophobic. -/
def get_hydrophobic_sasa_sc (sasa_sc : Pose → ℕ → ℝ) (pose : Pose)
    (residues : List ℕ) : ℝ :=
  ((residues.filter fun i => pose.name3 i ∈ hydrophobic_residues).map
    (sasa_sc pose)).sum

/-- The function `get_sasa(pose, residues)`: total and hydrophobic SASA sums. -/
def get_sasa (sasa hydrophobic_sasa : Pose → ℕ → ℝ) (pose : Pose)
    (residues : List ℕ) : ℝ × ℝ :=
  (((residues.map (sasa pose)).sum), ((residues.map (hydrophobic_sasa pose)).sum))

/-- The function `get_holes_score_for_residues(pose, residues)`: the holes filter value
divided by the total atom count of the residues. -/
def get_holes_score_for_residues (holes : Pose → List ℕ → ℝ) (pose : Pose)
    (residues : List ℕ) : ℝ :=
  holes pose residues / ((residues.map pose.natoms).sum : ℝ)

/-- The function `get_helix_complementarity_score(pose, residues)`: pure pass-through
to the shape complementarity filter with the residue selector set. -/
def get_helix_complementarity_score (helix_sc : Pose → List ℕ → ℝ)
    (pose : Pose) (residues : List ℕ) : ℝ :=
  helix_sc pose residues

/-- The function `get_fragment_quality_scores(pose, bb_remodeled_residues)`: the worst
(max) and mean crmsd over the picked fragment positions. -/
def get_fragment_quality_scores (crmsds : Pose → List ℕ → List ℝ)
    (pose : Pose) (bb_remodeled_residues : List ℕ) : Option (ℝ × ℝ) :=
  match pyMax (crmsds pose bb_remodeled_residues) with
  | none => none
  | some worst =>
      some (worst, ((crmsds pose bb_remodeled_residues).sum) /
        ((crmsds pose bb_remodeled_residues).length : ℝ))

/-- The backrub-consensus summation
`sum(backrub_ensemble_consensus_buhs_for_each_res[i + 1] for i in residues)`
of `generate_filter_scores` (note the `i + 1` index of the source); an
out-of-range index raises `IndexError` (modelled as `none`). -/
def consensusSum (consensus : List ℝ) (residues : List ℕ) : Option ℝ :=
  if ∀ i ∈ residues, i + 1 < consensus.length then
    some ((residues.map fun i => consensus.getD (i + 1) 0).sum)
  else none

/-- The function `generate_filter_scores(filter_info_file, pose, designable_residues,
repackable_residues, bb_remodeled_residues)`: the flat score table, as the
ordered list of `(key, value)` assignments the source makes into
`filter_scores` (writing the json file is outside the model). Note that
`all_residues = list(range(1, pose.size()))` in the source, i.e.
`[1, ..., size - 1]`. -/
def generate_filter_scores (O : FilterOracles) (pose : Pose)
    (designable_residues repackable_residues bb_remodeled_residues : List ℕ) :
    Option (List (String × ℝ)) := do
  let movable_residues := designable_residues ++ repackable_residues
  let all_residues := List.range' 1 (pose.size - 1)
  let des_avg := residues_average_energy O.energy pose designable_residues
  let mov_avg := residues_average_energy O.energy pose movable_residues
  let all_avg := residues_average_energy O.energy pose all_residues
  let des_max ← residues_max_energy O.energy pose designable_residues
  let mov_max ← residues_max_energy O.energy pose movable_residues
  let all_max ← residues_max_energy O.energy pose all_residues
  let des_buh ← get_num_buried_unsatisfied_hbonds O.bupc pose designable_residues
  let mov_buh ← get_num_buried_unsatisfied_hbonds O.bupc pose movable_residues
  let all_buh ← get_num_buried_unsatisfied_hbonds O.bupc pose all_residues
  let consensus ← get_backrub_ensemble_consensus_buhs_for_each_res
    O.get_buhs_for_each_res O.num_segments O.backrub pose
  let des_cons ← consensusSum consensus designable_residues
  let mov_cons ← consensusSum consensus movable_residues
  let (total_sasa, hydrophobic_sasa) :=
    get_sasa O.sasa O.hydrophobic_sasa pose (designable_residues ++ repackable_residues)
  let (frag_worst, frag_mean) ←
    get_fragment_quality_scores O.crmsds pose bb_remodeled_residues
  some
    [("designable_residues_average_energy", des_avg),
     ("movable_residues_average_energy", mov_avg),
     ("all_average_energy", all_avg),
     ("designable_residues_max_energy", des_max),
     ("movable_residues_max_energy", mov_max),
     ("all_residues_max_energy", all_max),
     ("buried_unsat_for_designable_residues", des_buh),
     ("buried_unsat_for_movable_residues", mov_buh),
     ("buried_unsat_for_all_residues", all_buh),
     ("backrub_ensemble_consensus_buhs_for_all_residues", consensus.sum),
     ("backrub_ensemble_consensus_buhs_for_designable_residues", des_cons),
     ("backrub_ensemble_consensus_buhs_for_movable_residues", mov_cons),
     ("num_over_saturated_hbond_acceptors_for_designable_residues",
       get_num_over_saturated_hbond_acceptors O.oshaf pose designable_residues),
     ("num_over_saturated_hbond_acceptors_for_movable_residues",
       get_num_over_saturated_hbond_acceptors O.oshaf pose designable_residues),
     ("num_over_saturated_hbond_acceptors_for_all_residues",
       get_num_over_saturated_hbond_acceptors O.oshaf pose designable_residues),
     ("hydrophobic_sasa_sc_for_designable_residues",
       get_hydrophobic_sasa_sc O.sasa_sc pose designable_residues),
     ("hydrophobic_sasa_for_movable_residues", hydrophobic_sasa),
     ("average_hydrophobic_sasa_for_movable_residues",
       hydrophobic_sasa / ((designable_residues ++ repackable_residues).length : ℝ)),
     ("relative_hydrophobic_sasa_for_movable_residues",
       hydrophobic_sasa / total_sasa),
     ("designable_local_holes_score",
       get_holes_score_for_residues O.holes pose designable_residues),
     ("movable_local_holes_score",
       get_holes_score_for_residues O.holes pose movable_residues),
     ("all_local_holes_score",
       get_holes_score_for_residues O.holes pose all_residues),
     ("bb_remodeled_residues_helix_complementarity",
       get_helix_complementarity_score O.helix_sc pose bb_remodeled_residues),
     ("bb_remodeled_worst_fragment_crmsd", frag_worst),
     ("bb_remodeled_mean_fragment_crmsd", frag_mean)]

/-- Concrete filter collaborators used to instantiate theorems: every
scalar oracle returns 0 except the oversaturated-acceptor filter, which
returns the size of the residue set it is given (so that different
residue subsets give different scores). -/
def sampleOracles : FilterOracles :=
  { energy := fun _ _ => 0
    bupc := fun _ => [0, 0, 0, 0]
    get_buhs_for_each_res := fun _ => [0, 0, 0, 0]
    num_segments := 0
    backrub := fun _ _ => zeroPose 3
    oshaf := fun _ rs => (rs.length : ℝ)
    sasa_sc := fun _ _ => 0
    sasa := fun _ _ => 0
    hydrophobic_sasa := fun _ _ => 0
    holes := fun _ _ => 0
    helix_sc := fun _ _ => 0
    crmsds := fun _ _ => [0] }

/-- The (segment, repeat) index pairs visited by the backrub consensus
loops: segments `1..num_segments`, 5 repeats each, in loop order. -/
def backrubPairs (num_segments : ℕ) : List (ℕ × ℕ) :=
  ((List.range' 1 num_segments).map fun i =>
    (List.range 5).map fun j => (i, j)).flatten

/-! ## Concrete instances for witnesses -/

/-- A concrete design directory: `design.pdb.gz` present, no
`lowest_energy_model.pdb`, a 3-residue structure, residue 2 remodeled. -/
def sampleDir : DesignDir :=
  { has_design_pdb := true
    has_lowest_energy_model := false
    pose_design := zeroPose 3
    pose_lowest_energy_file := zeroPose 3
    bb_remodeled_residues := [2] }

/-- A concrete design directory whose `design.pdb.gz` is missing. -/
def sampleDirNoPdb : DesignDir :=
  { has_design_pdb := false
    has_lowest_energy_model := false
    pose_design := zeroPose 3
    pose_lowest_energy_file := zeroPose 3
    bb_remodeled_residues := [2] }

/-- A concrete stand-in for `np.linalg.svd` used to instantiate theorems:
it returns `(1, 0, 1)`, which is a valid SVD exactly of the zero
matrix (the only covariance matrix arising in the concrete runs below,
whose points all sit at the origin). -/
def svd0 : Mat3 → Mat3 × Mat3 × Mat3 := fun _ => (1, 0, 1)

/-- A 90° rotation about the z axis: a proper rotation distinct from the
identity. -/
def Rz90 : Mat3 := !![0, -1, 0; 1, 0, 0; 0, 0, 1]

/-- A degenerate point set: a single point at the origin. -/
def singlePoint : List Point := [fun _ => 0]

/-- Six unit points along the coordinate axes: a point set whose centered
covariance matrix is `2 • 1`, which is positive definite. -/
def sixPoints : List Point :=
  [![1, 0, 0], ![-1, 0, 0], ![0, 1, 0], ![0, -1, 0], ![0, 0, 1], ![0, 0, -1]]

/-- A concrete stand-in for `np.linalg.svd` returning `(1, 2 • 1, 1)`: a
valid SVD exactly of the matrix `2 • 1`. -/
def svdTwo : Mat3 → Mat3 × Mat3 × Mat3 := fun _ => (1, (2 : ℝ) • 1, 1)

/-! ## Basic lemmas -/

theorem get_backbone_points_length (pose : Pose) (rs : List ℕ) :
    (get_backbone_points pose rs).length = 3 * rs.length := by
  induction rs with
  | nil => simp [get_backbone_points]
  | cons r t ih => simp [get_backbone_points, ih]; ring

theorem zip_self_map (l : List Point) : l.zip l = l.map fun x => (x, x) := by
  induction l with
  | nil => simp
  | cons a t ih => simp [ih]

theorem npDot_sub_comm (u v : Point) :
    npDot (u - v) (u - v) = npDot (v - u) (v - u) := by
  unfold npDot
  refine Finset.sum_congr rfl fun a _ => ?_
  simp only [Pi.sub_apply]
  ring

theorem zip_sub_sum_comm : ∀ (l1 l2 : List Point),
    ((l1.zip l2).map fun q => npDot (q.1 - q.2) (q.1 - q.2)).sum =
      ((l2.zip l1).map fun q => npDot (q.1 - q.2) (q.1 - q.2)).sum := by
  intro l1
  induction l1 with
  | nil => intro l2; cases l2 <;> simp
  | cons a t ih =>
      intro l2
      cases l2 with
      | nil => simp
      | cons b t2 => simp [ih t2, npDot_sub_comm a b]

theorem listRMSD_comm (l1 l2 : List Point) (h : l1.length = l2.length) :
    listRMSD l1 l2 = listRMSD l2 l1 := by
  unfold listRMSD
  rw [h, zip_sub_sum_comm]

theorem bind_some_inv {α β : Type} (x : Option α) (f : α → Option β) (b : β)
    (h : x >>= f = some b) : ∃ a, x = some a ∧ f a = some b := by
  cases x with
  | none => simp at h
  | some a => exact ⟨a, rfl, by simpa using h⟩

/-! ## C3 -/

/-- C3: `get_superimpose_transformation(P1, P2)` fails exactly when the
contract `len(P1) == len(P2) >= 1` is violated: it raises on
length-mismatched inputs and on a pair of empty lists, and returns a
transform (raises nothing) on every equal-length non-empty pair. -/
theorem superimpose_none_iff_precondition_violated
    (svd : Mat3 → Mat3 × Mat3 × Mat3) (P1 P2 : List Point) :
    get_superimpose_transformation svd P1 P2 = none ↔
      ¬ (P1.length = P2.length ∧ 1 ≤ P1.length) := by
  unfold get_superimpose_transformation
  split_ifs with h1 h2
  · exact iff_of_true rfl fun h => h1 h.1
  · refine iff_of_true rfl fun h => ?_
    rw [h2] at h
    exact absurd h.2 (by norm_num)
  · refine iff_of_false (by simp) fun h => ?_
    exact h ⟨not_ne_iff.mp h1, List.length_pos.mpr h2⟩

/-! ## C4 -/

/-- C4: for a manifest whose `bb_remodeled_residues` are positions inside
`{1..L}` (`L` the structure length), the fixed list computed by
`load_design` is exactly the complement of the remodeled list over
`{1..L}`: together they cover `{1..L}` and they are disjoint. -/
theorem fixed_residues_partition (d : DesignDir)
    (h : ∀ r ∈ d.bb_remodeled_residues, r ∈ List.range' 1 d.pose_design.size) :
    (∀ i, (i ∈ (load_design d).2.2.2 ∨ i ∈ (load_design d).2.2.1) ↔
      i ∈ List.range' 1 d.pose_design.size) ∧
    (∀ i, ¬ (i ∈ (load_design d).2.2.2 ∧ i ∈ (load_design d).2.2.1)) := by
  have hfix : (load_design d).2.2.2 =
      (List.range' 1 d.pose_design.size).filter
        fun i => ¬ i ∈ d.bb_remodeled_residues := rfl
  have hrem : (load_design d).2.2.1 = d.bb_remodeled_residues := rfl
  constructor
  · intro i
    rw [hfix, hrem]
    by_cases hi : i ∈ d.bb_remodeled_residues
    · simp [List.mem_filter, hi, h i hi]
    · simp [List.mem_filter, hi]
  · intro i
    rw [hfix, hrem]
    simp only [List.mem_filter, decide_not, Bool.not_eq_eq_eq_not, Bool.not_true,
      decide_eq_false_iff_not]
    tauto

/-- Witness for C4 at a concrete input: a 3-residue design with residue 2
remodeled. -/
theorem fixed_residues_partition_witness :
    (∀ r ∈ sampleDir.bb_remodeled_residues,
      r ∈ List.range' 1 sampleDir.pose_design.size) ∧
    ((∀ i, (i ∈ (load_design sampleDir).2.2.2 ∨
        i ∈ (load_design sampleDir).2.2.1) ↔
      i ∈ List.range' 1 sampleDir.pose_design.size) ∧
    (∀ i, ¬ (i ∈ (load_design sampleDir).2.2.2 ∧
      i ∈ (load_design sampleDir).2.2.1))) :=
  ⟨by decide, fixed_residues_partition sampleDir (by decide)⟩

/-! ## C5 -/

/-- C5: the backbone RMSD of a pose with itself over any non-empty residue
list is zero, and `calc_backbone_RMSD` is symmetric in its two
(pose, residue list) arguments. -/
theorem backbone_rmsd_zero_and_symm :
    (∀ (pose : Pose) (rs : List ℕ), rs ≠ [] →
      calc_backbone_RMSD pose rs pose rs = some 0) ∧
    (∀ (p1 : Pose) (r1 : List ℕ) (p2 : Pose) (r2 : List ℕ),
      calc_backbone_RMSD p1 r1 p2 r2 = calc_backbone_RMSD p2 r2 p1 r1) := by
  constructor
  · intro pose rs hrs
    unfold calc_backbone_RMSD
    rw [if_neg (by simp), if_neg hrs]
    have hz : (((get_backbone_points pose rs).zip
        (get_backbone_points pose rs)).map
          fun q => npDot (q.1 - q.2) (q.1 - q.2)).sum = 0 := by
      apply List.sum_eq_zero
      intro x hx
      rw [zip_self_map, List.map_map] at hx
      obtain ⟨p, -, rfl⟩ := List.mem_map.mp hx
      simp [npDot]
    simp [listRMSD, hz]
  · intro p1 r1 p2 r2
    unfold calc_backbone_RMSD
    by_cases hl : r1.length = r2.length
    · rw [hl]
      split_ifs with h1 h2 h3 h4
      · rfl
      · rfl
      · refine absurd ?_ h3
        rw [← List.length_eq_zero, ← hl, h2]
        rfl
      · refine absurd ?_ h2
        rw [← List.length_eq_zero, hl, h4]
        rfl
      · exact congrArg some (listRMSD_comm _ _ (by
          rw [get_backbone_points_length, get_backbone_points_length, hl]))
    · rw [if_pos hl, if_pos fun hc => hl hc.symm]

/-- Witness for the first conjunct of C5 at a concrete input. -/
theorem backbone_rmsd_zero_and_symm_witness :
    calc_backbone_RMSD (zeroPose 1) [1] (zeroPose 1) [1] = some 0 :=
  backbone_rmsd_zero_and_symm.1 (zeroPose 1) [1] (List.cons_ne_nil 1 [])

/-! ## C1: algebraic lemmas about the Kabsch computation -/

theorem list_sum_map_add {α : Type} (l : List α) (f g : α → ℝ) :
    (l.map fun x => f x + g x).sum = (l.map f).sum + (l.map g).sum := by
  induction l with
  | nil => simp
  | cons a t ih => simp [ih]; ring

theorem list_sum_map_const {α : Type} (l : List α) (c : ℝ) :
    (l.map fun _ => c).sum = l.length * c := by
  induction l with
  | nil => simp
  | cons a t ih => simp [ih]; ring

theorem list_sum_map_mul_left {α : Type} (l : List α) (c : ℝ) (f : α → ℝ) :
    (l.map fun x => c * f x).sum = c * (l.map f).sum := by
  induction l with
  | nil => simp
  | cons a t ih => simp [ih]; ring

theorem list_sum_map_finsum {α : Type} (l : List α) (f : α → Fin 3 → ℝ) :
    (l.map fun x => ∑ c, f x c).sum = ∑ c, (l.map fun x => f x c).sum := by
  induction l with
  | nil => simp
  | cons a t ih => simp [ih, Finset.sum_add_distrib]

theorem zip_map_self {α β : Type} (l : List α) (f : α → β) :
    l.zip (l.map f) = l.map fun x => (x, f x) := by
  induction l with
  | nil => rfl
  | cons a t ih => simp [ih]

/-- Transforming every point by `p ↦ R·p + t` transforms the centroid the
same way. -/
theorem centroid_map_rigid (P : List Point) (R : Mat3) (t : Point)
    (hP : P ≠ []) :
    centroid (P.map fun p => R.mulVec p + t) = R.mulVec (centroid P) + t := by
  have hn : (P.length : ℝ) ≠ 0 :=
    Nat.cast_ne_zero.mpr (Nat.pos_iff_ne_zero.mp (List.length_pos.mpr hP))
  funext a
  show ((((P.map fun p => R.mulVec p + t)).map fun p => p a).sum)
      / (((P.map fun p => R.mulVec p + t)).length : ℝ)
    = (R.mulVec (centroid P)) a + t a
  rw [List.map_map, List.length_map]
  have hfun : ((fun p : Point => p a) ∘ fun p => R.mulVec p + t)
      = fun p : Point => (∑ c, R a c * p c) + t a := by
    funext p
    simp [Function.comp, Matrix.mulVec, Matrix.dotProduct]
  rw [hfun, list_sum_map_add P (fun p => ∑ c, R a c * p c) (fun _ => t a),
    list_sum_map_finsum P (fun p c => R a c * p c), list_sum_map_const]
  have hMv : (R.mulVec (centroid P)) a
      = ∑ c, R a c * ((P.map fun p => p c).sum / (P.length : ℝ)) := by
    simp [Matrix.mulVec, Matrix.dotProduct, centroid]
  rw [hMv]
  have hdist : ∀ c : Fin 3,
      R a c * ((P.map fun p => p c).sum / (P.length : ℝ))
        = (R a c * (P.map fun p => p c).sum) / (P.length : ℝ) := fun c => by
    ring
  rw [Finset.sum_congr rfl fun c _ => hdist c, ← Finset.sum_div]
  field_simp
  rw [Finset.sum_congr rfl fun c _ =>
    list_sum_map_mul_left P (R a c) fun p => p c]
  ring

/-- With `P2 = R·P + t`, the cross-covariance matrix of
`get_superimpose_transformation` equals `A · Rᵀ` where `A` is the
centered covariance of `P` with itself. -/
theorem covMatrix_rigid (P : List Point) (R : Mat3) (t : Point)
    (hP : P ≠ []) :
    covMatrix P (P.map fun p => R.mulVec p + t) = covMatrix P P * Rᵀ := by
  have hc2 := centroid_map_rigid P R t hP
  ext a b
  simp only [covMatrix, Matrix.of_apply, Matrix.mul_apply,
    Matrix.transpose_apply]
  rw [hc2, zip_map_self, List.map_map]
  have hterm : ((fun q : Point × Point =>
        (q.1 a - centroid P a) * (q.2 b - (R.mulVec (centroid P) + t) b))
      ∘ fun p : Point => (p, R.mulVec p + t))
      = fun p : Point => ∑ c, R b c *
          ((p a - centroid P a) * (p c - centroid P c)) := by
    funext p
    show (p a - centroid P a) * ((R.mulVec p + t) b - (R.mulVec (centroid P) + t) b)
      = ∑ c, R b c * ((p a - centroid P a) * (p c - centroid P c))
    have h1 : (R.mulVec p + t) b - (R.mulVec (centroid P) + t) b
        = ∑ c, R b c * (p c - centroid P c) := by
      simp only [Pi.add_apply, Matrix.mulVec, Matrix.dotProduct]
      rw [show (∑ c, R b c * p c) + t b - ((∑ c, R b c * centroid P c) + t b)
          = (∑ c, R b c * p c) - (∑ c, R b c * centroid P c) from by ring,
        ← Finset.sum_sub_distrib]
      exact Finset.sum_congr rfl fun c _ => by ring
    rw [h1, Finset.mul_sum]
    exact Finset.sum_congr rfl fun c _ => by ring
  rw [hterm, list_sum_map_finsum P
    (fun p c => R b c * ((p a - centroid P a) * (p c - centroid P c)))]
  refine Finset.sum_congr rfl fun c _ => ?_
  rw [list_sum_map_mul_left, zip_self_map, List.map_map]
  rw [mul_comm]
  rfl

/-- The self covariance matrix is symmetric. -/
theorem covMatrix_self_transpose (P : List Point) :
    (covMatrix P P)ᵀ = covMatrix P P := by
  ext a b
  simp only [covMatrix, Matrix.transpose_apply, Matrix.of_apply]
  rw [zip_self_map, List.map_map, List.map_map]
  refine congrArg List.sum (List.map_congr_left fun x _ => ?_)
  simp only [Function.comp_apply]
  ring

/-- C1 (amended): for every point set `P` with at least one point whose
centered covariance matrix is positive definite (the points affinely span
3-space), every proper rotation `R` and translation `t`, and any SVD
returned by the `np.linalg.svd` collaborator satisfying its contract,
`get_superimpose_transformation(P, R·P + t)` returns exactly `(R, t)`. -/
theorem superimpose_recovers_rigid_transform_of_posdef
    (svd : Mat3 → Mat3 × Mat3 × Mat3) (P : List Point) (R : Mat3) (t : Point)
    (hP : P ≠ [])
    (hA : (covMatrix P P).PosDef)
    (hR : IsRotation R)
    (hsvd : IsSVD (covMatrix P (P.map fun p => R.mulVec p + t))
      (svd (covMatrix P (P.map fun p => R.mulVec p + t))).1
      (svd (covMatrix P (P.map fun p => R.mulVec p + t))).2.1
      (svd (covMatrix P (P.map fun p => R.mulVec p + t))).2.2) :
    get_superimpose_transformation svd P (P.map fun p => R.mulVec p + t)
      = some (R, t) := by
  obtain ⟨hRorth, hRdet⟩ := hR
  set A := covMatrix P P with hAdef
  set H := covMatrix P (P.map fun p => R.mulVec p + t) with hHdef
  set U := (svd H).1 with hUdef
  set S := (svd H).2.1 with hSdef
  set W := (svd H).2.2 with hWdef
  obtain ⟨hU, hW, hSdiag, hSnn, hH⟩ := hsvd
  have hHAR : H = A * Rᵀ := covMatrix_rigid P R t hP
  have hAsymm : Aᵀ = A := covMatrix_self_transpose P
  have hUU : U * Uᵀ = 1 := Matrix.mul_eq_one_comm.mp hU
  have hWW : W * Wᵀ = 1 := Matrix.mul_eq_one_comm.mp hW
  have hSd : S = Matrix.diagonal fun c => S c c := by
    ext a b
    by_cases hab : a = b
    · subst hab
      simp
    · rw [hSdiag a b hab, Matrix.diagonal_apply_ne _ hab]
  have hST : Sᵀ = S := by
    rw [hSd]
    exact Matrix.diagonal_transpose _
  have hSpsd : S.PosSemidef := by
    rw [hSd]
    exact Matrix.posSemidef_diagonal_iff.mpr fun c => hSnn c
  have hBpsd : (U * S * Uᵀ).PosSemidef := by
    have h := hSpsd.mul_mul_conjTranspose_same U
    rwa [Matrix.conjTranspose_eq_transpose_of_trivial] at h
  have hApsd : A.PosSemidef := hA.posSemidef
  have hsq : A ^ 2 = (U * S * Uᵀ) ^ 2 := by
    have h1 : A * A = H * Hᵀ := by
      rw [hHAR, Matrix.transpose_mul, Matrix.transpose_transpose]
      calc A * A = A * Aᵀ := by rw [hAsymm]
        _ = A * (Rᵀ * R) * Aᵀ := by rw [hRorth, Matrix.mul_one]
        _ = A * Rᵀ * (R * Aᵀ) := by noncomm_ring
    have h2 : H * Hᵀ = (U * S * Uᵀ) * (U * S * Uᵀ) := by
      rw [hH, Matrix.transpose_mul, Matrix.transpose_mul, hST]
      calc U * S * W * (Wᵀ * (S * Uᵀ))
          = U * S * (W * Wᵀ) * (S * Uᵀ) := by noncomm_ring
        _ = U * S * (S * Uᵀ) := by rw [hWW, Matrix.mul_one]
        _ = U * S * (Uᵀ * U) * (S * Uᵀ) := by rw [hU]; noncomm_ring
        _ = (U * S * Uᵀ) * (U * S * Uᵀ) := by noncomm_ring
    rw [pow_two, pow_two, h1, h2]
  have hAB : A = U * S * Uᵀ := hApsd.eq_of_sq_eq_sq hBpsd hsq
  have hdetU : U.det * U.det = 1 := by
    have h := congrArg Matrix.det hU
    rwa [Matrix.det_mul, Matrix.det_transpose, Matrix.det_one] at h
  have hdetS : IsUnit S.det := by
    have hdA : A.det = S.det * (U.det * U.det) := by
      rw [hAB, Matrix.det_mul, Matrix.det_mul, Matrix.det_transpose]
      ring
    have hpos := hA.det_pos
    rw [hdA, hdetU, mul_one] at hpos
    exact isUnit_iff_ne_zero.mpr (ne_of_gt hpos)
  have hWeq : W = Uᵀ * Rᵀ := by
    have h1 : U * (S * W) = U * (S * (Uᵀ * Rᵀ)) := by
      rw [show U * (S * W) = U * S * W from by noncomm_ring, ← hH, hHAR, hAB]
      noncomm_ring
    have h2 : S * W = S * (Uᵀ * Rᵀ) := by
      have h3 := congrArg (fun X => Uᵀ * X) h1
      simpa only [← Matrix.mul_assoc, hU, Matrix.one_mul] using h3
    calc W = 1 * W := (Matrix.one_mul W).symm
      _ = S⁻¹ * S * W := by rw [Matrix.nonsing_inv_mul S hdetS]
      _ = S⁻¹ * (S * W) := by rw [Matrix.mul_assoc]
      _ = S⁻¹ * (S * (Uᵀ * Rᵀ)) := by rw [h2]
      _ = S⁻¹ * S * (Uᵀ * Rᵀ) := by rw [Matrix.mul_assoc]
      _ = Uᵀ * Rᵀ := by rw [Matrix.nonsing_inv_mul S hdetS, Matrix.one_mul]
  have hdet_not : ¬ (U.det * W.det < 0) := by
    rw [hWeq, Matrix.det_mul, Matrix.det_transpose, Matrix.det_transpose,
      hRdet, mul_one, hdetU]
    norm_num
  have hMW : U * W = Rᵀ := by
    rw [hWeq, ← Matrix.mul_assoc, hUU, Matrix.one_mul]
  have hc2 : centroid (P.map fun p => R.mulVec p + t)
      = R.mulVec (centroid P) + t := centroid_map_rigid P R t hP
  simp only [get_superimpose_transformation]
  rw [if_neg (by simp), if_neg hP, if_neg hdet_not, hMW,
    Matrix.transpose_transpose, hc2]
  have ht : R.mulVec (centroid P) + t - R.mulVec (centroid P) = t := by
    funext a
    simp
  rw [ht]

/-- C1 (counterexample): the claim as stated — recovery of `(R, t)` for
*every* non-empty point set — is false. For the degenerate one-point set
at the origin and the 90° rotation `Rz90` with `t = 0`, the transformed
set equals the original, the covariance matrix is zero, `(1, 0, 1)` is a
valid SVD of it (and is what LAPACK returns on the zero matrix), and the
function returns the identity rotation instead of `Rz90`. (No
deterministic implementation could return both `(1, 0)` and `(Rz90, 0)`
on this same input.) -/
theorem superimpose_rigid_roundtrip_not_universal :
    ¬ ∀ (svd : Mat3 → Mat3 × Mat3 × Mat3) (P : List Point) (R : Mat3)
        (t : Point),
        P ≠ [] → IsRotation R →
        IsSVD (covMatrix P (P.map fun p => R.mulVec p + t))
          (svd (covMatrix P (P.map fun p => R.mulVec p + t))).1
          (svd (covMatrix P (P.map fun p => R.mulVec p + t))).2.1
          (svd (covMatrix P (P.map fun p => R.mulVec p + t))).2.2 →
        get_superimpose_transformation svd P (P.map fun p => R.mulVec p + t)
          = some (R, t) := by
  intro hclaim
  have hP0 : singlePoint ≠ [] := by simp [singlePoint]
  have hrot : IsRotation Rz90 := by
    constructor
    · have hT : Rz90ᵀ = !![0, 1, 0; -1, 0, 0; 0, 0, 1] := by
        ext i j
        fin_cases i <;> fin_cases j <;>
          simp [Rz90, Matrix.cons_val_two, Matrix.tail_cons,
            Matrix.vecHead, Matrix.vecTail]
      rw [hT, show Rz90 = !![0, -1, 0; 1, 0, 0; 0, 0, 1] from rfl,
        Matrix.mul_fin_three, Matrix.one_fin_three]
      norm_num
    · simp [Rz90, Matrix.det_fin_three]
  have hcov : covMatrix singlePoint
      (singlePoint.map fun p => Rz90.mulVec p + 0) = 0 := by
    ext a b
    simp [covMatrix, centroid, singlePoint]
  have hsvd : IsSVD (covMatrix singlePoint
        (singlePoint.map fun p => Rz90.mulVec p + 0))
      (svd0 (covMatrix singlePoint
        (singlePoint.map fun p => Rz90.mulVec p + 0))).1
      (svd0 (covMatrix singlePoint
        (singlePoint.map fun p => Rz90.mulVec p + 0))).2.1
      (svd0 (covMatrix singlePoint
        (singlePoint.map fun p => Rz90.mulVec p + 0))).2.2 := by
    refine ⟨by simp [svd0], by simp [svd0], ?_, ?_, ?_⟩
    · intro a b hab
      simp [svd0]
    · intro a
      simp [svd0]
    · rw [hcov]
      simp [svd0]
  have hres := hclaim svd0 singlePoint Rz90 0 hP0 hrot hsvd
  have hval : get_superimpose_transformation svd0 singlePoint
      (singlePoint.map fun p => Rz90.mulVec p + 0)
      = some (1, centroid (singlePoint.map fun p => Rz90.mulVec p + 0)
          - (1 : Mat3).mulVec (centroid singlePoint)) := by
    simp only [get_superimpose_transformation, svd0]
    rw [if_neg (by simp), if_neg hP0, if_neg (by norm_num [Matrix.det_one]),
      show ((1 : Mat3) * 1)ᵀ = 1 from by simp]
  rw [hval] at hres
  have hRz : (1 : Mat3) = Rz90 := congrArg Prod.fst (Option.some.inj hres)
  have h00 := congrFun (congrFun hRz 0) 0
  simp [Rz90, Matrix.one_apply] at h00

/-- Witness for the amended C1 at a concrete input: the six axis points,
the identity rotation, zero translation, and the valid SVD `(1, 2•1, 1)`
of the covariance matrix `2 • 1`. -/
theorem superimpose_recovers_rigid_transform_witness :
    get_superimpose_transformation svdTwo sixPoints
      (sixPoints.map fun p => (1 : Mat3).mulVec p + 0) = some (1, 0) := by
  have hcov : covMatrix sixPoints sixPoints = (2 : ℝ) • 1 := by
    ext a b
    fin_cases a <;> fin_cases b <;>
      simp [covMatrix, centroid, sixPoints, Matrix.one_apply] <;> norm_num
  have hmap : (sixPoints.map fun p => (1 : Mat3).mulVec p + 0) = sixPoints := by
    simp [Matrix.one_mulVec]
  have hA : (covMatrix sixPoints sixPoints).PosDef := by
    rw [hcov, show (2 : ℝ) • (1 : Mat3) = Matrix.diagonal fun _ => (2 : ℝ) by
      ext a b
      by_cases hab : a = b
      · subst hab
        simp
      · simp [Matrix.one_apply_ne hab, Matrix.diagonal_apply_ne _ hab]]
    exact Matrix.PosDef.diagonal fun _ => by norm_num
  have hrot : IsRotation (1 : Mat3) := ⟨by simp, by simp⟩
  have hsvd : IsSVD (covMatrix sixPoints
        (sixPoints.map fun p => (1 : Mat3).mulVec p + 0))
      (svdTwo (covMatrix sixPoints
        (sixPoints.map fun p => (1 : Mat3).mulVec p + 0))).1
      (svdTwo (covMatrix sixPoints
        (sixPoints.map fun p => (1 : Mat3).mulVec p + 0))).2.1
      (svdTwo (covMatrix sixPoints
        (sixPoints.map fun p => (1 : Mat3).mulVec p + 0))).2.2 := by
    refine ⟨by simp [svdTwo], by simp [svdTwo], ?_, ?_, ?_⟩
    · intro a b hab
      simp [svdTwo, Matrix.one_apply_ne hab]
    · intro a
      norm_num [svdTwo, Matrix.smul_apply, Matrix.one_apply]
    · rw [hmap, hcov]
      simp [svdTwo]
  exact superimpose_recovers_rigid_transform_of_posdef svdTwo sixPoints 1 0
    (by simp [sixPoints]) hA hrot hsvd

/-! ## C2 -/

theorem mem_allPairDistances_bounds (ps pt : Pose) :
    ∀ p ∈ allPairDistances ps pt,
      p.1 ∈ List.range' 1 ps.size ∧ p.2.1 ∈ List.range' 1 pt.size := by
  intro p hp
  unfold allPairDistances at hp
  rw [List.mem_flatten] at hp
  obtain ⟨l, hl, hpl⟩ := hp
  rw [List.mem_map] at hl
  obtain ⟨i, hi, rfl⟩ := hl
  rw [List.mem_map] at hpl
  obtain ⟨j, hj, rfl⟩ := hpl
  exact ⟨hi, hj⟩

theorem pair_mem_allPairDistances (ps pt : Pose) {i j : ℕ}
    (hi : i ∈ List.range' 1 ps.size) (hj : j ∈ List.range' 1 pt.size) :
    (i, j, pointDist (ps.xyz i "CA") (pt.xyz j "CA"))
      ∈ allPairDistances ps pt := by
  unfold allPairDistances
  rw [List.mem_flatten]
  exact ⟨_, List.mem_map_of_mem _ hi, List.mem_map_of_mem _ hj⟩

/-- The loop invariant of the greedy matcher: starting from an
accumulator whose keys and values are duplicate-free and in range, the
final map has duplicate-free keys and values, extends the accumulator,
stays in range, and either reached the break size or blocked every triple
of the remaining work list. -/
theorem buildResMap_invariant (n_s n_t : ℕ) :
    ∀ (L : List (ℕ × ℕ × ℝ)) (m : List (ℕ × ℕ)),
      (∀ p ∈ L, p.1 ∈ List.range' 1 n_s ∧ p.2.1 ∈ List.range' 1 n_t) →
      (m.map Prod.fst).Nodup →
      (m.map Prod.snd).Nodup →
      (∀ q ∈ m, q.2 ∈ List.range' 1 n_s ∧ q.1 ∈ List.range' 1 n_t) →
      ((buildResMap n_s L m).map Prod.fst).Nodup ∧
      ((buildResMap n_s L m).map Prod.snd).Nodup ∧
      (∀ q ∈ m, q ∈ buildResMap n_s L m) ∧
      (∀ q ∈ buildResMap n_s L m,
        q.2 ∈ List.range' 1 n_s ∧ q.1 ∈ List.range' 1 n_t) ∧
      ((buildResMap n_s L m).length = n_s ∨
        ∀ p ∈ L, p.2.1 ∈ (buildResMap n_s L m).map Prod.fst ∨
          p.1 ∈ (buildResMap n_s L m).map Prod.snd) := by
  intro L
  induction L with
  | nil =>
      intro m hL hk hv hm
      exact ⟨hk, hv, fun q hq => hq, hm, Or.inr (by simp)⟩
  | cons d rest ih =>
      intro m hL hk hv hm
      have hLd := hL d (List.mem_cons_self d rest)
      have hLrest : ∀ p ∈ rest,
          p.1 ∈ List.range' 1 n_s ∧ p.2.1 ∈ List.range' 1 n_t :=
        fun p hp => hL p (List.mem_cons_of_mem d hp)
      by_cases hc : ¬ d.2.1 ∈ m.map Prod.fst ∧ ¬ d.1 ∈ m.map Prod.snd
      · -- the pair is inserted
        have hred : buildResMap n_s (d :: rest) m =
            if (m ++ [(d.2.1, d.1)]).length = n_s then m ++ [(d.2.1, d.1)]
            else buildResMap n_s rest (m ++ [(d.2.1, d.1)]) := by
          simp only [buildResMap]
          rw [if_pos hc]
        have hk' : ((m ++ [(d.2.1, d.1)]).map Prod.fst).Nodup := by
          simp [List.nodup_append, hk, hc.1]
        have hv' : ((m ++ [(d.2.1, d.1)]).map Prod.snd).Nodup := by
          simp [List.nodup_append, hv, hc.2]
        have hm'' : ∀ q ∈ m ++ [(d.2.1, d.1)],
            q.2 ∈ List.range' 1 n_s ∧ q.1 ∈ List.range' 1 n_t := by
          intro q hq
          rcases List.mem_append.mp hq with h | h
          · exact hm q h
          · rcases List.mem_singleton.mp h with rfl
            exact ⟨hLd.1, hLd.2⟩
        have hsub : m ⊆ m ++ [(d.2.1, d.1)] := List.subset_append_left _ _
        have hd : d.2.1 ∈ (m ++ [(d.2.1, d.1)]).map Prod.fst := by simp
        rw [hred]
        by_cases hfin : (m ++ [(d.2.1, d.1)]).length = n_s
        · rw [if_pos hfin]
          exact ⟨hk', hv', fun q hq => hsub hq, hm'', Or.inl hfin⟩
        · rw [if_neg hfin]
          obtain ⟨ihk, ihv, ihsub, ihm, ihlast⟩ :=
            ih (m ++ [(d.2.1, d.1)]) hLrest hk' hv' hm''
          refine ⟨ihk, ihv, fun q hq => ihsub q (hsub hq), ihm, ?_⟩
          rcases ihlast with hl | hr
          · exact Or.inl hl
          · refine Or.inr fun p hp => ?_
            rcases List.mem_cons.mp hp with rfl | hp'
            · left
              obtain ⟨q, hq, hq1⟩ := List.mem_map.mp hd
              exact List.mem_map.mpr ⟨q, ihsub q hq, hq1⟩
            · exact hr p hp'
      · -- the pair is blocked: its key or its value is already claimed
        have hred : buildResMap n_s (d :: rest) m =
            if m.length = n_s then m else buildResMap n_s rest m := by
          simp only [buildResMap]
          rw [if_neg hc]
        rw [not_and_or, not_not, not_not] at hc
        rw [hred]
        by_cases hfin : m.length = n_s
        · rw [if_pos hfin]
          exact ⟨hk, hv, fun q hq => hq, hm, Or.inl hfin⟩
        · rw [if_neg hfin]
          obtain ⟨ihk, ihv, ihsub, ihm, ihlast⟩ := ih m hLrest hk hv hm
          refine ⟨ihk, ihv, ihsub, ihm, ?_⟩
          rcases ihlast with hl | hr
          · exact Or.inl hl
          · refine Or.inr fun p hp => ?_
            rcases List.mem_cons.mp hp with rfl | hp'
            · rcases hc with h | h
              · left
                obtain ⟨q, hq, hq1⟩ := List.mem_map.mp h
                exact List.mem_map.mpr ⟨q, ihsub q hq, hq1⟩
              · right
                obtain ⟨q, hq, hq1⟩ := List.mem_map.mp h
                exact List.mem_map.mpr ⟨q, ihsub q hq, hq1⟩
            · exact hr p hp'

/-- C2: under the precondition `1 <= pose_source.size() <= pose_target.size()`
and the `sorted` contract (its output is a permutation of its input),
`get_target_to_source_residue_map` produces a map whose target keys are
pairwise distinct, whose source values are pairwise distinct (so the map
is injective in both directions), and whose size is exactly
`pose_source.size()`, the residue count of the shorter structure. -/
theorem residue_map_injective_and_size
    (sortByDist : List (ℕ × ℕ × ℝ) → List (ℕ × ℕ × ℝ))
    (ps pt : Pose) (h1 : 1 ≤ ps.size) (h2 : ps.size ≤ pt.size)
    (hperm : ∀ l, (sortByDist l).Perm l) :
    ((get_target_to_source_residue_map sortByDist ps pt).map Prod.fst).Nodup ∧
    ((get_target_to_source_residue_map sortByDist ps pt).map Prod.snd).Nodup ∧
    (get_target_to_source_residue_map sortByDist ps pt).length = ps.size := by
  have hmemL : ∀ p : ℕ × ℕ × ℝ,
      p ∈ sortByDist (allPairDistances ps pt) ↔ p ∈ allPairDistances ps pt :=
    fun p => (hperm (allPairDistances ps pt)).mem_iff
  have hL : ∀ p ∈ sortByDist (allPairDistances ps pt),
      p.1 ∈ List.range' 1 ps.size ∧ p.2.1 ∈ List.range' 1 pt.size :=
    fun p hp => mem_allPairDistances_bounds ps pt p ((hmemL p).mp hp)
  obtain ⟨hk, hv, hsub, hbounds, hlast⟩ :=
    buildResMap_invariant ps.size pt.size (sortByDist (allPairDistances ps pt))
      [] hL (by simp) (by simp) (by simp)
  have hres : get_target_to_source_residue_map sortByDist ps pt
      = buildResMap ps.size (sortByDist (allPairDistances ps pt)) [] := rfl
  rw [hres]
  refine ⟨hk, hv, ?_⟩
  set r := buildResMap ps.size (sortByDist (allPairDistances ps pt)) [] with hrdef
  have hsubs : r.map Prod.snd ⊆ List.range' 1 ps.size := by
    intro x hx
    obtain ⟨q, hq, rfl⟩ := List.mem_map.mp hx
    exact (hbounds q hq).1
  have hsubk : r.map Prod.fst ⊆ List.range' 1 pt.size := by
    intro x hx
    obtain ⟨q, hq, rfl⟩ := List.mem_map.mp hx
    exact (hbounds q hq).2
  have hlen_le : r.length ≤ ps.size := by
    have hle := (List.subperm_of_subset hv hsubs).length_le
    simpa using hle
  rcases hlast with h | h
  · exact h
  · by_contra hne
    have hlt : r.length < ps.size := lt_of_le_of_ne hlen_le hne
    obtain ⟨i, hiR, hiV⟩ : ∃ i ∈ List.range' 1 ps.size,
        ¬ i ∈ r.map Prod.snd := by
      by_contra hcc
      push_neg at hcc
      have hle := (List.subperm_of_subset (List.nodup_range' ..) hcc).length_le
      simp at hle
      omega
    obtain ⟨j, hjR, hjK⟩ : ∃ j ∈ List.range' 1 pt.size,
        ¬ j ∈ r.map Prod.fst := by
      by_contra hcc
      push_neg at hcc
      have hle := (List.subperm_of_subset (List.nodup_range' ..) hcc).length_le
      simp at hle
      omega
    have hpL : (i, j, pointDist (ps.xyz i "CA") (pt.xyz j "CA"))
        ∈ sortByDist (allPairDistances ps pt) :=
      (hmemL _).mpr (pair_mem_allPairDistances ps pt hiR hjR)
    rcases h _ hpL with hk1 | hv1
    · exact hjK hk1
    · exact hiV hv1

/-- Witness for C2 at a concrete input: two one-residue poses and the
identity stand-in for `sorted`. -/
theorem residue_map_injective_and_size_witness :
    1 ≤ (zeroPose 1).size ∧ (zeroPose 1).size ≤ (zeroPose 1).size ∧
    (((get_target_to_source_residue_map id (zeroPose 1)
        (zeroPose 1)).map Prod.fst).Nodup ∧
     ((get_target_to_source_residue_map id (zeroPose 1)
        (zeroPose 1)).map Prod.snd).Nodup ∧
     (get_target_to_source_residue_map id (zeroPose 1)
        (zeroPose 1)).length = (zeroPose 1).size) :=
  ⟨le_refl 1, le_refl 1,
    residue_map_injective_and_size id (zeroPose 1) (zeroPose 1)
      (le_refl 1) (le_refl 1) (fun l => List.Perm.refl l)⟩

/-! ## C10 -/

/-- C10: a successful `superimpose_poses_by_residues` call leaves the
target pose untouched and replaces every atom coordinate of the source
pose by `M·p + t`, where `(M, t)` is the transform computed by
`get_superimpose_transformation` on the two backbone point lists. The
residue lists are only read (they are list values in this model; the
source builds fresh point lists from them and never writes them). -/
theorem superimpose_mutates_only_source (svd : Mat3 → Mat3 × Mat3 × Mat3)
    (ps : Pose) (rs : List ℕ) (pt : Pose) (rt : List ℕ) (r : Pose × Pose)
    (h : superimpose_poses_by_residues svd ps rs pt rt = some r) :
    r.2 = pt ∧ r.1.size = ps.size ∧
    ∃ M t, get_superimpose_transformation svd (get_backbone_points ps rs)
        (get_backbone_points pt rt) = some (M, t) ∧
      ∀ res atom, r.1.xyz res atom = M.mulVec (ps.xyz res atom) + t := by
  unfold superimpose_poses_by_residues at h
  by_cases hlen : rs.length ≠ rt.length
  · rw [if_pos hlen] at h
    exact absurd h (by simp)
  · rw [if_neg hlen] at h
    rcases hg : get_superimpose_transformation svd (get_backbone_points ps rs)
        (get_backbone_points pt rt) with _ | ⟨M, t⟩
    · rw [hg] at h
      exact absurd h (by simp)
    · rw [hg] at h
      obtain rfl : (apply_transform_Rx_plus_v M t ps, pt) = r := Option.some.inj h
      exact ⟨rfl, rfl, M, t, rfl, fun res atom => rfl⟩

/-! ## C9 -/

/-- C9: `calc_backbone_RMSD` on empty residue lists divides by
`len(diff) == 0` and fails; consequently a pair iteration whose filtered
correspondence lists are empty (no matched target residue in the
remodeled set) fails, and a failing pair iteration aborts the whole batch
row instead of producing a matrix entry. -/
theorem empty_residue_rmsd_fails :
    (∀ p1 p2 : Pose, calc_backbone_RMSD p1 [] p2 [] = none) ∧
    (∀ (sortByDist : List (ℕ × ℕ × ℝ) → List (ℕ × ℕ × ℝ)) (src tgt : Pose)
      (rem : List ℕ),
      (∀ k ∈ get_target_to_source_residue_map sortByDist src tgt,
        ¬ k.1 ∈ rem) →
      rmsd_entry_core sortByDist src tgt rem = none) ∧
    (∀ (svd : Mat3 → Mat3 × Mat3 × Mat3)
      (sortByDist : List (ℕ × ℕ × ℝ) → List (ℕ × ℕ × ℝ))
      (di dj : LoadedDesign) (pj : Pose) (rest : List (LoadedDesign × Pose)),
      rmsd_entry svd sortByDist di dj pj = none →
      computeRow svd sortByDist di ((dj, pj) :: rest) = none) := by
  refine ⟨?_, ?_, ?_⟩
  · intro p1 p2
    simp [calc_backbone_RMSD]
  · intro sortByDist src tgt rem h
    have hfil : (get_target_to_source_residue_map sortByDist src tgt).filter
        (fun p => p.1 ∈ rem) = [] := by
      rw [List.filter_eq_nil_iff]
      intro a ha
      simpa using h a ha
    simp only [rmsd_entry_core, hfil]
    simp [calc_backbone_RMSD]
  · intro svd sortByDist di dj pj rest h
    simp [computeRow, h]

/-- Witness for C9 at concrete inputs: an empty remodeled set makes the
pair iteration fail, and a failing entry aborts the row. -/
theorem empty_residue_rmsd_fails_witness :
    rmsd_entry_core id (zeroPose 1) (zeroPose 1) [] = none ∧
    computeRow svd0 id { design := zeroPose 1, remodeled := [], fixed := [1] }
      [({ design := zeroPose 1, remodeled := [], fixed := [] }, zeroPose 1)]
      = none :=
  ⟨empty_residue_rmsd_fails.2.1 id (zeroPose 1) (zeroPose 1) []
      (fun k _ => List.not_mem_nil k.1),
    empty_residue_rmsd_fails.2.2 svd0 id
      { design := zeroPose 1, remodeled := [], fixed := [1] }
      { design := zeroPose 1, remodeled := [], fixed := [] }
      (zeroPose 1) [] rfl⟩

/-! ## C6 -/

/-- C6 (code bug): in `generate_filter_scores`, all three
oversaturated-hbond-acceptor entries — the designable key, the movable
key and the all-residues key — store the filter score computed on the
*designable* residues; the movable and all-residues subsets are never
passed to the filter. -/
theorem oversaturated_scores_all_use_designable (O : FilterOracles)
    (pose : Pose)
    (designable_residues repackable_residues bb_remodeled_residues : List ℕ)
    (table : List (String × ℝ))
    (h : generate_filter_scores O pose designable_residues
      repackable_residues bb_remodeled_residues = some table) :
    table.lookup "num_over_saturated_hbond_acceptors_for_designable_residues"
      = some (O.oshaf pose designable_residues) ∧
    table.lookup "num_over_saturated_hbond_acceptors_for_movable_residues"
      = some (O.oshaf pose designable_residues) ∧
    table.lookup "num_over_saturated_hbond_acceptors_for_all_residues"
      = some (O.oshaf pose designable_residues) := by
  unfold generate_filter_scores at h
  obtain ⟨a1, h1, h⟩ := bind_some_inv _ _ _ h
  obtain ⟨a2, h2, h⟩ := bind_some_inv _ _ _ h
  obtain ⟨a3, h3, h⟩ := bind_some_inv _ _ _ h
  obtain ⟨a4, h4, h⟩ := bind_some_inv _ _ _ h
  obtain ⟨a5, h5, h⟩ := bind_some_inv _ _ _ h
  obtain ⟨a6, h6, h⟩ := bind_some_inv _ _ _ h
  obtain ⟨a7, h7, h⟩ := bind_some_inv _ _ _ h
  obtain ⟨a8, h8, h⟩ := bind_some_inv _ _ _ h
  obtain ⟨a9, h9, h⟩ := bind_some_inv _ _ _ h
  obtain ⟨a10, h10, h⟩ := bind_some_inv _ _ _ h
  obtain ⟨w, mn⟩ := a10
  obtain rfl := (Option.some.inj h).symm
  refine ⟨?_, ?_, ?_⟩ <;>
    simp [List.lookup, get_num_over_saturated_hbond_acceptors]

/-- Witness/divergence for C6 at a concrete input: with designable `[1]`
and repackable `[2]` (movable `[1, 2]`) and the oversaturated filter
scoring a residue set by its size, the movable key stores the designable
score, which differs from the filter value on the movable residues. -/
theorem oversaturated_scores_all_use_designable_witness :
    ∃ table, generate_filter_scores sampleOracles (zeroPose 3) [1] [2] [1]
        = some table ∧
      table.lookup "num_over_saturated_hbond_acceptors_for_movable_residues"
        = some (sampleOracles.oshaf (zeroPose 3) [1]) ∧
      sampleOracles.oshaf (zeroPose 3) [1]
        ≠ sampleOracles.oshaf (zeroPose 3) ([1] ++ [2]) := by
  have hsome : (generate_filter_scores sampleOracles (zeroPose 3)
      [1] [2] [1]).isSome := by
    rfl
  obtain ⟨table, ht⟩ := Option.isSome_iff_exists.mp hsome
  refine ⟨table, ht,
    (oversaturated_scores_all_use_designable sampleOracles (zeroPose 3)
      [1] [2] [1] table ht).2.1, ?_⟩
  norm_num [sampleOracles]

/-! ## C7 -/

theorem computeRow_length (svd : Mat3 → Mat3 × Mat3 × Mat3)
    (sortByDist : List (ℕ × ℕ × ℝ) → List (ℕ × ℕ × ℝ)) (di : LoadedDesign) :
    ∀ (st : List (LoadedDesign × Pose)) (r : List ℝ × List (LoadedDesign × Pose)),
      computeRow svd sortByDist di st = some r →
      r.1.length = st.length ∧ r.2.length = st.length := by
  intro st
  induction st with
  | nil =>
      intro r h
      obtain rfl : ([], []) = r := Option.some.inj h
      simp
  | cons hd t ih =>
      obtain ⟨dj, pj⟩ := hd
      intro r h
      simp only [computeRow] at h
      cases he : rmsd_entry svd sortByDist di dj pj with
      | none => rw [he] at h; exact absurd h (by simp)
      | some v =>
          obtain ⟨rv, pj'⟩ := v
          rw [he] at h
          cases hrow : computeRow svd sortByDist di t with
          | none => rw [hrow] at h; exact absurd h (by simp)
          | some w =>
              obtain ⟨rs, rest'⟩ := w
              rw [hrow] at h
              obtain rfl : (rv :: rs, (dj, pj') :: rest') = r := Option.some.inj h
              obtain ⟨h1, h2⟩ := ih (rs, rest') hrow
              simp only [List.length_cons]
              exact ⟨by rw [h1], by rw [h2]⟩

theorem computeAllRows_length (svd : Mat3 → Mat3 × Mat3 × Mat3)
    (sortByDist : List (ℕ × ℕ × ℝ) → List (ℕ × ℕ × ℝ)) :
    ∀ (ds : List LoadedDesign) (st : List (LoadedDesign × Pose))
      (m : List (List ℝ)),
      computeAllRows svd sortByDist ds st = some m →
      m.length = ds.length ∧ ∀ row ∈ m, row.length = st.length := by
  intro ds
  induction ds with
  | nil =>
      intro st m h
      obtain rfl : [] = m := Option.some.inj h
      simp
  | cons di ds ih =>
      intro st m h
      simp only [computeAllRows] at h
      cases hrow : computeRow svd sortByDist di st with
      | none => rw [hrow] at h; exact absurd h (by simp)
      | some v =>
          obtain ⟨row, st'⟩ := v
          rw [hrow] at h
          have h' : (match computeAllRows svd sortByDist ds st' with
              | none => none
              | some mrest => some (row :: mrest)) = some m := h
          cases hrest : computeAllRows svd sortByDist ds st' with
          | none => rw [hrest] at h'; exact absurd h' (by simp)
          | some mrest =>
              rw [hrest] at h'
              obtain rfl : row :: mrest = m := Option.some.inj h'
              obtain ⟨hm1, hm2⟩ := ih st' mrest hrest
              obtain ⟨hr1, hr2⟩ := computeRow_length svd sortByDist di st
                (row, st') hrow
              refine ⟨by simp [hm1], ?_⟩
              intro r hr
              rcases List.mem_cons.mp hr with rfl | hr'
              · exact hr1
              · rw [hm2 r hr', hr2]

/-- C7: `calculate_bb_remodeled_region_rmsds` drops every directory
without `design.pdb.gz` before any loading or pair computation (its result
is the same as on the pre-filtered list, and the exclusion itself raises
nothing), and a successful run returns an N×N matrix where N counts only
the retained directories. -/
theorem rmsd_batch_excludes_missing_design_pdb
    (svd : Mat3 → Mat3 × Mat3 × Mat3)
    (sortByDist : List (ℕ × ℕ × ℝ) → List (ℕ × ℕ × ℝ))
    (dirs : List DesignDir) :
    calculate_bb_remodeled_region_rmsds svd sortByDist dirs
      = calculate_bb_remodeled_region_rmsds svd sortByDist
          (dirs.filter fun d => d.has_design_pdb) ∧
    ∀ m, calculate_bb_remodeled_region_rmsds svd sortByDist dirs = some m →
      m.length = (dirs.filter fun d => d.has_design_pdb).length ∧
      ∀ row ∈ m, row.length = (dirs.filter fun d => d.has_design_pdb).length := by
  constructor
  · simp only [calculate_bb_remodeled_region_rmsds, List.filter_filter,
      Bool.and_self]
  · intro m h
    simp only [calculate_bb_remodeled_region_rmsds] at h
    obtain ⟨h1, h2⟩ := computeAllRows_length svd sortByDist _ _ m h
    constructor
    · rw [h1, List.length_map, List.length_map]
    · intro row hrow
      rw [h2 row hrow, List.length_map]

/-- Witness for C7 at a concrete input: a single directory whose
`design.pdb.gz` is missing is excluded and the matrix is 0×0. -/
theorem rmsd_batch_excludes_missing_design_pdb_witness :
    (calculate_bb_remodeled_region_rmsds svd0 id [sampleDirNoPdb]
      = calculate_bb_remodeled_region_rmsds svd0 id
          ([sampleDirNoPdb].filter fun d => d.has_design_pdb)) ∧
    (([] : List (List ℝ)).length
        = ([sampleDirNoPdb].filter fun d => d.has_design_pdb).length ∧
      ∀ row ∈ ([] : List (List ℝ)),
        row.length = ([sampleDirNoPdb].filter fun d => d.has_design_pdb).length) :=
  ⟨(rmsd_batch_excludes_missing_design_pdb svd0 id [sampleDirNoPdb]).1,
    (rmsd_batch_excludes_missing_design_pdb svd0 id [sampleDirNoPdb]).2 [] rfl⟩

/-! ## C8 -/

theorem getD_zipWith_min (a b : List ℝ) (k : ℕ)
    (hka : k < a.length) (hkb : k < b.length) :
    (a.zipWith min b).getD k 0 = min (a.getD k 0) (b.getD k 0) := by
  have hk : k < (a.zipWith min b).length := by
    simp only [List.length_zipWith]
    omega
  rw [List.getD_eq_getElem?_getD, List.getD_eq_getElem?_getD,
    List.getD_eq_getElem?_getD, List.getElem?_eq_getElem hk,
    List.getElem?_eq_getElem hka, List.getElem?_eq_getElem hkb]
  simp [List.getElem_zipWith]

theorem foldl_zipWith_length {α : Type} (tmp : α → List ℝ) (L : ℕ)
    (htmp : ∀ x, (tmp x).length = L) :
    ∀ (xs : List α) (acc : List ℝ), acc.length = L →
      (xs.foldl (fun a x => a.zipWith min (tmp x)) acc).length = L := by
  intro xs
  induction xs with
  | nil => intro acc h; exact h
  | cons x t ih =>
      intro acc h
      simp only [List.foldl_cons]
      exact ih _ (by simp [List.length_zipWith, h, htmp x])

theorem foldl_zipWith_getD {α : Type} (tmp : α → List ℝ) (L : ℕ)
    (htmp : ∀ x, (tmp x).length = L) (k : ℕ) (hk : k < L) :
    ∀ (xs : List α) (acc : List ℝ), acc.length = L →
      (xs.foldl (fun a x => a.zipWith min (tmp x)) acc).getD k 0
        = (xs.map fun x => (tmp x).getD k 0).foldl min (acc.getD k 0) := by
  intro xs
  induction xs with
  | nil => intro acc h; rfl
  | cons x t ih =>
      intro acc h
      simp only [List.foldl_cons, List.map_cons]
      rw [ih _ (by simp [List.length_zipWith, h, htmp x]),
        getD_zipWith_min _ _ k (by rw [h]; exact hk) (by rw [htmp x]; exact hk)]

theorem consensus_inner_eval (tmp : ℕ → List ℝ) (L : ℕ)
    (htmp : ∀ j, (tmp j).length = L) :
    ∀ (js : List ℕ) (acc : List ℝ), acc.length = L →
      js.foldlM (fun a j => consensusUpdate a (tmp j)) acc
        = some (js.foldl (fun a j => a.zipWith min (tmp j)) acc) := by
  intro js
  induction js with
  | nil => intro acc h; rfl
  | cons j t ih =>
      intro acc h
      rw [List.foldlM_cons]
      have hstep : consensusUpdate acc (tmp j)
          = some (acc.zipWith min (tmp j)) := by
        unfold consensusUpdate
        rw [if_pos (by rw [h, htmp j])]
      rw [hstep, List.foldl_cons]
      exact ih _ (by simp [List.length_zipWith, h, htmp j])

theorem consensus_eval (buhs : Pose → List ℝ) (S : ℕ)
    (backrub : ℕ → ℕ → Pose) (pose : Pose) (L : ℕ)
    (hlen : ∀ p, (buhs p).length = L) :
    get_backrub_ensemble_consensus_buhs_for_each_res buhs S backrub pose
      = some ((List.range' 1 S).foldl
          (fun acc i => (List.range 5).foldl
            (fun a j => a.zipWith min (buhs (backrub i j))) acc)
          (buhs pose)) := by
  unfold get_backrub_ensemble_consensus_buhs_for_each_res
  suffices h : ∀ (is : List ℕ) (acc : List ℝ), acc.length = L →
      is.foldlM (fun acc i => (List.range 5).foldlM
        (fun a j => consensusUpdate a (buhs (backrub i j))) acc) acc
        = some (is.foldl (fun acc i => (List.range 5).foldl
            (fun a j => a.zipWith min (buhs (backrub i j))) acc) acc) from
    h _ _ (hlen pose)
  intro is
  induction is with
  | nil => intro acc h; rfl
  | cons i t ih =>
      intro acc h
      rw [List.foldlM_cons,
        consensus_inner_eval (fun j => buhs (backrub i j)) L
          (fun j => hlen _) (List.range 5) acc h,
        List.foldl_cons]
      exact ih _ (foldl_zipWith_length (fun j => buhs (backrub i j)) L
        (fun j => hlen _) (List.range 5) acc h)

theorem nested_foldl_eq_flat {β : Type} (g : β → ℕ × ℕ → β) (S : ℕ) (init : β) :
    (List.range' 1 S).foldl
      (fun acc i => (List.range 5).foldl (fun a j => g a (i, j)) acc) init
      = (backrubPairs S).foldl g init := by
  simp only [backrubPairs, List.foldl_flatten, List.foldl_map]

theorem foldl_min_le (l : List ℝ) : ∀ a : ℝ, l.foldl min a ≤ a := by
  induction l with
  | nil => intro a; exact le_refl a
  | cons x t ih => intro a; exact le_trans (ih (min a x)) (min_le_left a x)

/-- C8: with the backrub mover and the buried-unsatisfied counter as
external collaborators returning equal-length count lists,
`get_backrub_ensemble_consensus_buhs_for_each_res` returns, at every
residue position `k`, the minimum of the original count at `k` and the
counts at `k` of each perturbed copy (5 per segment); in particular the
result at every position is at most the original count there. -/
theorem backrub_consensus_is_pointwise_min (buhs : Pose → List ℝ) (S : ℕ)
    (backrub : ℕ → ℕ → Pose) (pose : Pose)
    (hlen : ∀ p, (buhs p).length = (buhs pose).length) :
    ∃ r, get_backrub_ensemble_consensus_buhs_for_each_res buhs S backrub pose
        = some r ∧
      r.length = (buhs pose).length ∧
      (∀ k, k < r.length → r.getD k 0 =
        ((backrubPairs S).map fun ij =>
          (buhs (backrub ij.1 ij.2)).getD k 0).foldl
            min ((buhs pose).getD k 0)) ∧
      (∀ k, k < r.length → r.getD k 0 ≤ (buhs pose).getD k 0) := by
  have heval := consensus_eval buhs S backrub pose (buhs pose).length hlen
  rw [nested_foldl_eq_flat
    (fun a ij => a.zipWith min (buhs (backrub ij.1 ij.2))) S (buhs pose)]
    at heval
  refine ⟨_, heval, ?_, ?_, ?_⟩
  · exact foldl_zipWith_length (fun ij => buhs (backrub ij.1 ij.2))
      (buhs pose).length (fun ij => hlen _) (backrubPairs S) (buhs pose) rfl
  · intro k hk
    have hkL : k < (buhs pose).length := by
      rwa [foldl_zipWith_length (fun ij => buhs (backrub ij.1 ij.2))
        (buhs pose).length (fun ij => hlen _) (backrubPairs S)
        (buhs pose) rfl] at hk
    exact foldl_zipWith_getD (fun ij => buhs (backrub ij.1 ij.2))
      (buhs pose).length (fun ij => hlen _) k hkL (backrubPairs S)
      (buhs pose) rfl
  · intro k hk
    have hkL : k < (buhs pose).length := by
      rwa [foldl_zipWith_length (fun ij => buhs (backrub ij.1 ij.2))
        (buhs pose).length (fun ij => hlen _) (backrubPairs S)
        (buhs pose) rfl] at hk
    rw [foldl_zipWith_getD (fun ij => buhs (backrub ij.1 ij.2))
      (buhs pose).length (fun ij => hlen _) k hkL (backrubPairs S)
      (buhs pose) rfl]
    exact foldl_min_le _ _

/-- Witness for C8 at a concrete input: a constant counter oracle over a
one-segment mover. -/
theorem backrub_consensus_is_pointwise_min_witness :
    ∃ r, get_backrub_ensemble_consensus_buhs_for_each_res
        (fun _ => [3, 1]) 1 (fun _ _ => zeroPose 1) (zeroPose 1) = some r ∧
      r.length = ((fun (_ : Pose) => [(3 : ℝ), 1]) (zeroPose 1)).length ∧
      (∀ k, k < r.length → r.getD k 0 =
        ((backrubPairs 1).map fun ij =>
          ((fun (_ : Pose) => [(3 : ℝ), 1]) ((fun _ _ => zeroPose 1) ij.1 ij.2)).getD k 0).foldl
            min (((fun (_ : Pose) => [(3 : ℝ), 1]) (zeroPose 1)).getD k 0)) ∧
      (∀ k, k < r.length → r.getD k 0 ≤
        ((fun (_ : Pose) => [(3 : ℝ), 1]) (zeroPose 1)).getD k 0) :=
  backrub_consensus_is_pointwise_min (fun _ => [3, 1]) 1
    (fun _ _ => zeroPose 1) (zeroPose 1) (fun _ => rfl)

/-- Witness for C10 at a concrete successful call. -/
theorem superimpose_mutates_only_source_witness :
    ∃ r, superimpose_poses_by_residues svd0 (zeroPose 1) [1] (zeroPose 1) [1]
        = some r ∧
      (r.2 = zeroPose 1 ∧ r.1.size = (zeroPose 1).size ∧
      ∃ M t, get_superimpose_transformation svd0
          (get_backbone_points (zeroPose 1) [1])
          (get_backbone_points (zeroPose 1) [1]) = some (M, t) ∧
        ∀ res atom, r.1.xyz res atom
          = M.mulVec ((zeroPose 1).xyz res atom) + t) := by
  have hs : (superimpose_poses_by_residues svd0 (zeroPose 1) [1]
      (zeroPose 1) [1]).isSome := by
    unfold superimpose_poses_by_residues get_superimpose_transformation
    simp [get_backbone_points]
  obtain ⟨r, hr⟩ := Option.isSome_iff_exists.mp hs
  exact ⟨r, hr,
    superimpose_mutates_only_source svd0 (zeroPose 1) [1] (zeroPose 1) [1] r hr⟩

end LPSD
